import Mathlib

/-!
Verification development for the `drisk_api` graph-diff library.

The Rust sources (`src/diff.rs`, `src/node_update.rs`, `src/bytes.rs`) are
shallowly embedded below.  `hashbrown::HashMap`/`HashSet` are modelled as
association lists / lists of elements: every operation of the source is
translated to an executable Lean function over those lists, and the
observable behaviour (lookup, membership) matches the hash-map semantics.
-/

set_option linter.unusedSectionVars false

namespace Drisk

/-! ## Association-list model of `hashbrown::HashMap` / `HashSet` -/

variable {α β : Type} [DecidableEq α]

/-- Model of `HashMap::get`: value of the first entry with the given key. -/
def lookupA : List (α × β) → α → Option β
  | [], _ => none
  | (k, v) :: rest, a => if k = a then some v else lookupA rest a

/-- Model of `HashMap::contains_key`. -/
def containsKeyA (m : List (α × β)) (a : α) : Bool :=
  (lookupA m a).isSome

/-- Model of `HashMap::insert`: replace the value of an existing key in
place, or append a fresh entry. -/
def insertA : List (α × β) → α → β → List (α × β)
  | [], k, v => [(k, v)]
  | (k', v') :: rest, k, v =>
      if k' = k then (k, v) :: rest else (k', v') :: insertA rest k v

/-- Model of `HashMap::remove` (value dropped). -/
def removeA (m : List (α × β)) (a : α) : List (α × β) :=
  m.filter (fun p => p.1 ≠ a)

/-- Model of `HashMap::try_insert`: insert only when the key is absent. -/
def tryInsertA (m : List (α × β)) (a : α) (v : β) : List (α × β) :=
  if containsKeyA m a then m else insertA m a v

/-- Model of `HashMap::extend`: insert every entry of the second map. -/
def extendA (m : List (α × β)) (news : List (α × β)) : List (α × β) :=
  news.foldl (fun acc p => insertA acc p.1 p.2) m

/-- Model of `HashSet::insert`. -/
def insertS (s : List α) (a : α) : List α :=
  if a ∈ s then s else a :: s

/-- Model of `HashSet::remove`. -/
def removeS (s : List α) (a : α) : List α :=
  s.filter (fun x => x ≠ a)

/-! ## `NodeUpdate` (src/node_update.rs) -/

/-- Update type for the dRISK API (`NodeUpdate` in `src/node_update.rs`).
`f32` fields are modelled as `ℚ` and `u8` fields as `Nat`; the library never
performs arithmetic on them, it only stores, merges and compares them. -/
structure NodeUpdate where
  label : Option String
  size : Option ℚ
  url : Option String
  red : Option Nat
  green : Option Nat
  blue : Option Nat
  show_label : Option Bool
deriving DecidableEq, Repr

/-- Model of `Default for NodeUpdate`: every field absent. -/
instance : Inhabited NodeUpdate := ⟨⟨none, none, none, none, none, none, none⟩⟩

/-- Model of `AddAssign for NodeUpdate` (`self += other`): per field, a
present field of `other` overwrites, an absent one is a no-op. -/
def NodeUpdate.merge (a b : NodeUpdate) : NodeUpdate where
  label := match b.label with | some x => some x | none => a.label
  size := match b.size with | some x => some x | none => a.size
  url := match b.url with | some x => some x | none => a.url
  red := match b.red with | some x => some x | none => a.red
  green := match b.green with | some x => some x | none => a.green
  blue := match b.blue with | some x => some x | none => a.blue
  show_label := match b.show_label with | some x => some x | none => a.show_label

instance : Add NodeUpdate := ⟨NodeUpdate.merge⟩

/-! ## `GraphDiff` data model (src/diff.rs) -/

/-- Model of `NodeDiff<Id, T>`. -/
structure NodeDiff (Id T : Type) where
  new_or_updated : List (Id × T)
  deleted : List Id
deriving DecidableEq

/-- Model of `EdgeDiff<Id, W>`. -/
structure EdgeDiff (Id W : Type) where
  new_or_updated : List (Id × List (Id × W))
  deleted : List (Id × List Id)
deriving DecidableEq

/-- Model of `GraphDiff<Id, T, W>`. -/
structure GraphDiff (Id T W : Type) where
  nodes : NodeDiff Id T
  edges : EdgeDiff Id W
deriving DecidableEq

variable {Id T W : Type} [DecidableEq Id] [Inhabited T] [Add T]

/-- Model of `GraphDiff::default` / `GraphDiff::new`: all four collections
empty. -/
def GraphDiff.new : GraphDiff Id T W := ⟨⟨[], []⟩, ⟨[], []⟩⟩

/-- Model of `GraphDiff::is_empty`. -/
def GraphDiff.is_empty (d : GraphDiff Id T W) : Bool :=
  d.nodes.new_or_updated.isEmpty && d.nodes.deleted.isEmpty &&
    d.edges.new_or_updated.isEmpty && d.edges.deleted.isEmpty

/-- Model of `GraphDiff::add_node`. -/
def GraphDiff.add_node (d : GraphDiff Id T W) (node_id : Id) :
    GraphDiff Id T W :=
  { d with nodes :=
      { new_or_updated := tryInsertA d.nodes.new_or_updated node_id default
        deleted := removeS d.nodes.deleted node_id } }

/-- Model of `GraphDiff::add_or_update_node`: merge into an existing entry,
otherwise insert, then clear the deletion flag. -/
def GraphDiff.add_or_update_node (d : GraphDiff Id T W) (node_id : Id)
    (upd : T) : GraphDiff Id T W :=
  let nu := match lookupA d.nodes.new_or_updated node_id with
    | some node => insertA d.nodes.new_or_updated node_id (node + upd)
    | none => insertA d.nodes.new_or_updated node_id upd
  { d with nodes := { new_or_updated := nu
                      deleted := removeS d.nodes.deleted node_id } }

/-- Model of `GraphDiff::set_node_update`: unconditional overwrite. -/
def GraphDiff.set_node_update (d : GraphDiff Id T W) (node_id : Id)
    (upd : T) : GraphDiff Id T W :=
  { d with nodes :=
      { new_or_updated := insertA d.nodes.new_or_updated node_id upd
        deleted := removeS d.nodes.deleted node_id } }

/-- Model of the loop body of `GraphDiff::delete_node`:
`self.edges.deleted.entry(*from).or_default().insert(node_id)`. -/
def recordEdgeDeletion (ed : List (Id × List Id)) (f node_id : Id) :
    List (Id × List Id) :=
  insertA ed f (insertS ((lookupA ed f).getD []) node_id)

/-- Model of `GraphDiff::delete_node`. -/
def GraphDiff.delete_node (d : GraphDiff Id T W) (node_id : Id) :
    GraphDiff Id T W :=
  let nu := removeA d.nodes.new_or_updated node_id
  let enu1 := removeA d.edges.new_or_updated node_id
  let ed := enu1.foldl
    (fun acc p => if containsKeyA p.2 node_id
                  then recordEdgeDeletion acc p.1 node_id else acc)
    d.edges.deleted
  let enu2 := enu1.map (fun p => (p.1, removeA p.2 node_id))
  { nodes := { new_or_updated := nu, deleted := insertS d.nodes.deleted node_id }
    edges := { new_or_updated := enu2, deleted := ed } }

/-- Error message of `GraphDiff::add_edge`. -/
def addEdgeErr : String := "Either from or to nodes are marked to be deleted"

/-- Model of `GraphDiff::add_edge`: error on a tombstoned endpoint,
otherwise clear a pending deletion of the edge (pruning an emptied
deletion entry) and upsert the weight. -/
def GraphDiff.add_edge (d : GraphDiff Id T W) (f t : Id) (w : W) :
    Except String (GraphDiff Id T W) :=
  if f ∈ d.nodes.deleted ∨ t ∈ d.nodes.deleted then
    .error addEdgeErr
  else
    let ed1 := match lookupA d.edges.deleted f with
      | some inner => insertA d.edges.deleted f (removeS inner t)
      | none => d.edges.deleted
    let ed2 := match lookupA ed1 f with
      | some inner => if inner.isEmpty then removeA ed1 f else ed1
      | none => ed1
    let enu := insertA d.edges.new_or_updated f
      (insertA ((lookupA d.edges.new_or_updated f).getD []) t w)
    .ok { d with edges := { new_or_updated := enu, deleted := ed2 } }

/-- State seen by the caller after `add_edge` on a `&mut self`: the new
state on success, the unchanged state on error. -/
def GraphDiff.add_edge_st (d : GraphDiff Id T W) (f t : Id) (w : W) :
    GraphDiff Id T W :=
  match d.add_edge f t w with
  | .ok d2 => d2
  | .error _ => d

/-- Model of the inner loop of `GraphDiff::add_edges` over one source row;
returns the state reached together with the first error, if any (the Rust
method mutates `self` in place and propagates the first error with `?`). -/
def GraphDiff.add_edge_row (d : GraphDiff Id T W) (f : Id) :
    List (Id × W) → GraphDiff Id T W × Option String
  | [] => (d, none)
  | (t, w) :: rest =>
      match d.add_edge f t w with
      | .ok d2 => d2.add_edge_row f rest
      | .error e => (d, some e)

/-- Model of `GraphDiff::add_edges`: apply `add_edge` pair by pair, stopping
at the first error; earlier pairs stay applied. -/
def GraphDiff.add_edges (d : GraphDiff Id T W) :
    List (Id × List (Id × W)) → GraphDiff Id T W × Option String
  | [] => (d, none)
  | (f, tw) :: rest =>
      match d.add_edge_row f tw with
      | (d2, none) => d2.add_edges rest
      | (d2, some e) => (d2, some e)

/-- Model of `GraphDiff::delete_edge`: record the deletion, remove the edge
from the update map and prune the source entry if it became empty. -/
def GraphDiff.delete_edge (d : GraphDiff Id T W) (f t : Id) :
    GraphDiff Id T W :=
  let ed := insertA d.edges.deleted f
      (insertS ((lookupA d.edges.deleted f).getD []) t)
  let step := match lookupA d.edges.new_or_updated f with
    | none => (d.edges.new_or_updated, false)
    | some tw =>
        let tw2 := removeA tw t
        (insertA d.edges.new_or_updated f tw2, tw2.isEmpty)
  let enu := if step.2 then removeA step.1 f else step.1
  { d with edges := { new_or_updated := enu, deleted := ed } }

/-- Model of `GraphDiff::delete_edges`: apply `delete_edge` for every pair
(the Rust method always returns `Ok`). -/
def GraphDiff.delete_edges (d : GraphDiff Id T W)
    (es : List (Id × List Id)) : GraphDiff Id T W :=
  es.foldl (fun acc p => p.2.foldl (fun a2 t => a2.delete_edge p.1 t) acc) d

/-- Model of `GraphDiff::add_edges_unchecked`: extend each source's inner
update map, with no tombstone check and no pruning (always `Ok`). -/
def GraphDiff.add_edges_unchecked (d : GraphDiff Id T W)
    (es : List (Id × List (Id × W))) : Except String (GraphDiff Id T W) :=
  let enu := es.foldl
    (fun m p => insertA m p.1 (extendA ((lookupA m p.1).getD []) p.2))
    d.edges.new_or_updated
  .ok { d with edges := { new_or_updated := enu, deleted := d.edges.deleted } }

/-- Model of `GraphDiff::clear`. -/
def GraphDiff.clear (_d : GraphDiff Id T W) : GraphDiff Id T W :=
  ⟨⟨[], []⟩, ⟨[], []⟩⟩

/-- Model of `AddAssign<NodeDiff> for GraphDiff`: merge every updated node,
then delete every node marked deleted. -/
def GraphDiff.add_assign_nodes (d : GraphDiff Id T W)
    (nd : NodeDiff Id T) : GraphDiff Id T W :=
  let d1 := nd.new_or_updated.foldl
    (fun acc p => acc.add_or_update_node p.1 p.2) d
  nd.deleted.foldl (fun acc i => acc.delete_node i) d1

/-- Model of `AddAssign<EdgeDiff> for GraphDiff`: insert every updated edge,
swallowing `add_edge` errors (`let _ = ...`), then apply every deletion. -/
def GraphDiff.add_assign_edges (d : GraphDiff Id T W)
    (ed : EdgeDiff Id W) : GraphDiff Id T W :=
  let d1 := ed.new_or_updated.foldl
    (fun acc p => p.2.foldl
      (fun a2 q => a2.add_edge_st p.1 q.1 q.2) acc) d
  ed.deleted.foldl
    (fun acc p => p.2.foldl (fun a2 t => a2.delete_edge p.1 t) acc) d1

/-- Model of `AddAssign for GraphDiff` (`self += other`): node diff first,
then edge diff. -/
def GraphDiff.add_assign (d other : GraphDiff Id T W) : GraphDiff Id T W :=
  (d.add_assign_nodes other.nodes).add_assign_edges other.edges

/-- Model of the `#[cfg(test)]` checker `GraphDiff::is_internally_consistent`:
no endpoint of any entry of either edge map lies in the node deletion set. -/
def GraphDiff.is_internally_consistent (d : GraphDiff Id T W) : Prop :=
  (∀ p ∈ d.edges.new_or_updated,
      p.1 ∉ d.nodes.deleted ∧ ∀ q ∈ p.2, q.1 ∉ d.nodes.deleted) ∧
  (∀ p ∈ d.edges.deleted,
      p.1 ∉ d.nodes.deleted ∧ ∀ t ∈ p.2, t ∉ d.nodes.deleted)

instance (d : GraphDiff Id T W) : Decidable d.is_internally_consistent := by
  unfold GraphDiff.is_internally_consistent
  infer_instance

/-! ## Public mutation operations as a step relation -/

/-- The public mutation operations of `GraphDiff` named by the invariant
claims: `add_node`, `add_or_update_node`, `set_node_update`, `delete_node`,
`add_edge`, `add_edges`, `delete_edge`, `delete_edges`, `clear` and `+=`. -/
inductive Op (Id T W : Type) where
  | add_node (id : Id)
  | add_or_update_node (id : Id) (upd : T)
  | set_node_update (id : Id) (upd : T)
  | delete_node (id : Id)
  | add_edge (f t : Id) (w : W)
  | add_edges (es : List (Id × List (Id × W)))
  | delete_edge (f t : Id)
  | delete_edges (es : List (Id × List Id))
  | clear
  | add_assign (other : GraphDiff Id T W)

/-- State reached by one public mutation (for the fallible operations the
caller keeps the mutated-in-place state, errors notwithstanding). -/
def applyOp (d : GraphDiff Id T W) : Op Id T W → GraphDiff Id T W
  | .add_node i => d.add_node i
  | .add_or_update_node i u => d.add_or_update_node i u
  | .set_node_update i u => d.set_node_update i u
  | .delete_node i => d.delete_node i
  | .add_edge f t w => d.add_edge_st f t w
  | .add_edges es => (d.add_edges es).1
  | .delete_edge f t => d.delete_edge f t
  | .delete_edges es => d.delete_edges es
  | .clear => d.clear
  | .add_assign other => d.add_assign other

/-- State built from the empty diff by a sequence of public mutations. -/
def applyOps (ops : List (Op Id T W)) : GraphDiff Id T W :=
  ops.foldl applyOp GraphDiff.new

/-! ## Invariants of reachable states -/

/-- Tombstone exclusivity for nodes: no key of the node update map lies in
the node deletion set. -/
def nodesExclusive (d : GraphDiff Id T W) : Prop :=
  ∀ i, containsKeyA d.nodes.new_or_updated i → i ∉ d.nodes.deleted

/-- No entry of the edge update map references a tombstoned endpoint. -/
def updMapConsistent (d : GraphDiff Id T W) : Prop :=
  ∀ p ∈ d.edges.new_or_updated,
    p.1 ∉ d.nodes.deleted ∧ ∀ q ∈ p.2, q.1 ∉ d.nodes.deleted

/-- No source key of the edge deletion map holds an empty destination set. -/
def delMapNonempty (d : GraphDiff Id T W) : Prop :=
  ∀ p ∈ d.edges.deleted, p.2 ≠ []

/-! ## Codec (src/bytes.rs)

The byte format of `graph_diff_to_bytes` / `bytes_to_graph_diff` is produced
by the external crates `bincode` (outer envelope) and `serde_json` (per-node
payload text); their sources are not part of this repository.  Following the
wire-format section of the specification, the envelope is modelled as a
length-prefixed byte sequence over the three fields (id→text map, deleted-id
set, edge diff) and the payload text as a field-tagged character encoding
that omits absent fields.  Bytes are `Nat`s below 256; naturals are encoded
as little-endian base-255 digit lists closed by the byte 255, and decimal
digit characters closed by a semicolon at the text level. -/

variable {γ δ : Type}

/-- Decimal digit to character. -/
def digitToChar : Nat → Char
  | 0 => '0'
  | 1 => '1'
  | 2 => '2'
  | 3 => '3'
  | 4 => '4'
  | 5 => '5'
  | 6 => '6'
  | 7 => '7'
  | 8 => '8'
  | _ => '9'

/-- Character to decimal digit (code points 48–57), failing on
non-digits. -/
def charToDigit (c : Char) : Option Nat :=
  if 48 ≤ c.toNat ∧ c.toNat ≤ 57 then some (c.toNat - 48) else none

/-- Text-level natural: little-endian decimal digits closed by a
semicolon. -/
def cEncNat (n : Nat) : List Char :=
  (Nat.digits 10 n).map digitToChar ++ [';']

/-- Text-level natural parser. -/
def cNat : List Char → Option (Nat × List Char)
  | [] => none
  | c :: cs =>
      if c = ';' then some (0, cs)
      else
        match charToDigit c with
        | some d => (cNat cs).map (fun pr => (d + 10 * pr.1, pr.2))
        | none => none

/-- Text-level string: length then the raw characters. -/
def cEncString (s : String) : List Char :=
  cEncNat s.length ++ s.data

/-- Text-level string parser. -/
def cString (cs : List Char) : Option (String × List Char) :=
  (cNat cs).bind fun pr =>
    if pr.1 ≤ pr.2.length
    then some (String.mk (pr.2.take pr.1), pr.2.drop pr.1)
    else none

/-- Text-level rational: optional minus sign, then numerator and
denominator. -/
def cEncRat (q : ℚ) : List Char :=
  (if q.num < 0 then ['-'] else []) ++ cEncNat q.num.natAbs ++ cEncNat q.den

/-- Text-level rational parser. -/
def cRat : List Char → Option (ℚ × List Char)
  | [] => none
  | c :: cs2 =>
      if c = '-' then
        (cNat cs2).bind fun pr1 =>
          (cNat pr1.2).map fun pr2 =>
            (-((pr1.1 : ℚ) / (pr2.1 : ℚ)), pr2.2)
      else
        (cNat (c :: cs2)).bind fun pr1 =>
          (cNat pr1.2).map fun pr2 =>
            (((pr1.1 : ℚ) / (pr2.1 : ℚ)), pr2.2)

/-- Text-level boolean. -/
def cEncBool : Bool → List Char
  | true => ['T']
  | false => ['F']

/-- Text-level boolean parser. -/
def cBool : List Char → Option (Bool × List Char)
  | 'T' :: cs => some (true, cs)
  | 'F' :: cs => some (false, cs)
  | _ => none

/-- Field of the payload text: omitted when absent, otherwise its tag
character followed by the encoded value. -/
def optField (tg : Char) (enc : γ → List Char) : Option γ → List Char
  | none => []
  | some a => tg :: enc a

/-- Parser of an optional field: consumes the field when the next character
is its tag, yields `none` otherwise. -/
def parseOpt (tg : Char) (p : List Char → Option (γ × List Char)) :
    List Char → Option (Option γ × List Char)
  | [] => some (none, [])
  | c :: r =>
      if c = tg then (p r).map (fun pr => (some pr.1, pr.2))
      else some (none, c :: r)

/-- Modelled from the spec: the self-describing text encoding of a node's
payload delta that `serde_json::to_string` produces in the source — absent
fields are omitted, present fields are tagged; `serde_json` itself is not
part of this repository. -/
def jsonEncode (u : NodeUpdate) : String :=
  String.mk (optField 'l' cEncString u.label ++
    (optField 's' cEncRat u.size ++
    (optField 'u' cEncString u.url ++
    (optField 'r' cEncNat u.red ++
    (optField 'g' cEncNat u.green ++
    (optField 'b' cEncNat u.blue ++
    optField 'h' cEncBool u.show_label))))))

/-- Payload-text parser over the character list: the seven optional fields
in order, requiring the whole text to be consumed. -/
def jsonDecodeL (cs : List Char) : Option NodeUpdate :=
  match parseOpt 'l' cString cs with
  | none => none
  | some (l, r1) =>
    match parseOpt 's' cRat r1 with
    | none => none
    | some (sz, r2) =>
      match parseOpt 'u' cString r2 with
      | none => none
      | some (url, r3) =>
        match parseOpt 'r' cNat r3 with
        | none => none
        | some (red, r4) =>
          match parseOpt 'g' cNat r4 with
          | none => none
          | some (green, r5) =>
            match parseOpt 'b' cNat r5 with
            | none => none
            | some (blue, r6) =>
              match parseOpt 'h' cBool r6 with
              | none => none
              | some (sl, r7) =>
                  if r7 = [] then some ⟨l, sz, url, red, green, blue, sl⟩
                  else none

/-- Modelled from the spec: decoding a payload delta from its embedded
text (`serde_json::from_str` in the source), failing explicitly on
malformed text. -/
def jsonDecode (s : String) : Option NodeUpdate :=
  jsonDecodeL s.data

/-- Byte-level natural: little-endian base-255 digits closed by 255. -/
def encNat (n : Nat) : List Nat :=
  Nat.digits 255 n ++ [255]

/-- Byte-level natural parser. -/
def pNat : List Nat → Option (Nat × List Nat)
  | [] => none
  | b :: bs =>
      if b = 255 then some (0, bs)
      else if b < 255 then
        (pNat bs).map (fun pr => (b + 255 * pr.1, pr.2))
      else none

/-- Byte-level collection: length prefix then the encoded elements. -/
def encListN (enc : γ → List Nat) (xs : List γ) : List Nat :=
  encNat xs.length ++ (xs.map enc).flatten

/-- Parser of a known number of consecutive elements. -/
def pCount (p : List Nat → Option (γ × List Nat)) :
    Nat → List Nat → Option (List γ × List Nat)
  | 0, bs => some ([], bs)
  | n + 1, bs =>
      (p bs).bind fun pr =>
        (pCount p n pr.2).map fun pr2 => (pr.1 :: pr2.1, pr2.2)

/-- Byte-level collection parser. -/
def pListN (p : List Nat → Option (γ × List Nat)) (bs : List Nat) :
    Option (List γ × List Nat) :=
  (pNat bs).bind fun pr => pCount p pr.1 pr.2

/-- Byte-level pair. -/
def encPairN (e1 : γ → List Nat) (e2 : δ → List Nat) (x : γ × δ) :
    List Nat :=
  e1 x.1 ++ e2 x.2

/-- Byte-level pair parser. -/
def pPairN (p1 : List Nat → Option (γ × List Nat))
    (p2 : List Nat → Option (δ × List Nat)) (bs : List Nat) :
    Option ((γ × δ) × List Nat) :=
  (p1 bs).bind fun pr1 =>
    (p2 pr1.2).map fun pr2 => ((pr1.1, pr2.1), pr2.2)

/-- Byte-level character (its code point). -/
def encCharN (c : Char) : List Nat :=
  encNat c.toNat

/-- Byte-level character parser. -/
def pCharN (bs : List Nat) : Option (Char × List Nat) :=
  (pNat bs).map fun pr => (Char.ofNat pr.1, pr.2)

/-- Byte-level string. -/
def encStringN (s : String) : List Nat :=
  encListN encCharN s.data

/-- Byte-level string parser. -/
def pStringN (bs : List Nat) : Option (String × List Nat) :=
  (pListN pCharN bs).map fun pr => (String.mk pr.1, pr.2)

/-- Byte-level rational weight: sign byte, numerator, denominator. -/
def encRatN (q : ℚ) : List Nat :=
  (if q.num < 0 then [1] else [0]) ++ encNat q.num.natAbs ++ encNat q.den

/-- Byte-level rational parser. -/
def pRatN : List Nat → Option (ℚ × List Nat)
  | 0 :: bs =>
      (pNat bs).bind fun pr1 =>
        (pNat pr1.2).map fun pr2 =>
          (((pr1.1 : ℚ) / (pr2.1 : ℚ)), pr2.2)
  | 1 :: bs =>
      (pNat bs).bind fun pr1 =>
        (pNat pr1.2).map fun pr2 =>
          (-((pr1.1 : ℚ) / (pr2.1 : ℚ)), pr2.2)
  | _ => none

/-- Error value of the modelled decoder. -/
def decodeErr : String := "failed to decode GraphDiff"

/-- Byte encoding of the edge diff: the two source-indexed maps. -/
def encEdgeDiffN (e : EdgeDiff Nat ℚ) : List Nat :=
  encListN (encPairN encNat (encListN (encPairN encNat encRatN)))
    e.new_or_updated ++
  encListN (encPairN encNat (encListN encNat)) e.deleted

/-- Modelled from the spec: `graph_diff_to_bytes` — each node update is
rendered to its payload text, then the envelope (id→text map, deleted-id
set, edge diff) is serialized in order; `bincode::serialize` is not part of
this repository.  On `NodeUpdate` payloads the source's `Result` is always
`Ok`, so the encoder is total here. -/
def graph_diff_to_bytes (d : GraphDiff Nat NodeUpdate ℚ) : List Nat :=
  encListN (encPairN encNat encStringN)
    (d.nodes.new_or_updated.map (fun p => (p.1, jsonEncode p.2))) ++
  (encListN encNat d.nodes.deleted ++ encEdgeDiffN d.edges)

/-- Parser of the outer envelope (the `bincode::deserialize` step),
yielding the id→text map, the deleted-id set and the edge diff. -/
def outerParse (bs : List Nat) :
    Option ((List (Nat × String) × List Nat × EdgeDiff Nat ℚ) × List Nat) :=
  match pListN (pPairN pNat pStringN) bs with
  | none => none
  | some (jm, r1) =>
    match pListN pNat r1 with
    | none => none
    | some (del, r2) =>
      match pListN (pPairN pNat (pListN (pPairN pNat pRatN))) r2 with
      | none => none
      | some (enu, r3) =>
        match pListN (pPairN pNat (pListN pNat)) r3 with
        | none => none
        | some (ed, r4) => some ((jm, del, ⟨enu, ed⟩), r4)

/-- Per-entry decoding of the payload texts: any single failure fails the
whole list. -/
def decodeEntries : List (Nat × String) → Option (List (Nat × NodeUpdate))
  | [] => some []
  | (i, s) :: rest =>
      match jsonDecode s with
      | none => none
      | some u =>
          (decodeEntries rest).map (fun l => (i, u) :: l)

/-- Modelled from the spec: `bytes_to_graph_diff` — parse the outer
envelope, decode every embedded payload text, fail the whole operation on
any malformed input. -/
def bytes_to_graph_diff (bs : List Nat) :
    Except String (GraphDiff Nat NodeUpdate ℚ) :=
  match outerParse bs with
  | none => .error decodeErr
  | some (tup, _) =>
      match decodeEntries tup.1 with
      | none => .error decodeErr
      | some nu => .ok ⟨⟨nu, tup.2.1⟩, tup.2.2⟩

/-! ## Association-list lemmas -/

@[simp]
theorem lookupA_nil (a : α) : lookupA ([] : List (α × β)) a = none := rfl

@[simp]
theorem lookupA_cons (k : α) (v : β) (rest : List (α × β)) (a : α) :
    lookupA ((k, v) :: rest) a = if k = a then some v else lookupA rest a := rfl

theorem lookupA_insertA_self (m : List (α × β)) (k : α) (v : β) :
    lookupA (insertA m k v) k = some v := by
  induction m with
  | nil => simp [insertA]
  | cons p rest ih =>
      obtain ⟨k', v'⟩ := p
      by_cases h : k' = k
      · simp [insertA, h]
      · simp [insertA, h, ih]

theorem lookupA_insertA_ne (m : List (α × β)) (k : α) (v : β) (a : α)
    (h : a ≠ k) : lookupA (insertA m k v) a = lookupA m a := by
  induction m with
  | nil => simp [insertA, Ne.symm h]
  | cons p rest ih =>
      obtain ⟨k', v'⟩ := p
      by_cases hk : k' = k
      · subst hk
        simp [insertA, Ne.symm h]
      · simp [insertA, hk, ih]

theorem mem_insertA {m : List (α × β)} {k : α} {v : β} {p : α × β}
    (h : p ∈ insertA m k v) : p = (k, v) ∨ p ∈ m := by
  induction m with
  | nil => simpa [insertA] using h
  | cons q rest ih =>
      obtain ⟨k', v'⟩ := q
      by_cases hk : k' = k
      · simp [insertA, hk] at h
        rcases h with h | h
        · exact Or.inl (by simp [h])
        · exact Or.inr (by simp [h])
      · simp [insertA, hk] at h
        rcases h with h | h
        · exact Or.inr (by simp [h])
        · rcases ih h with h' | h'
          · exact Or.inl h'
          · exact Or.inr (by simp [h'])

@[simp]
theorem mem_removeA {m : List (α × β)} {a : α} {p : α × β} :
    p ∈ removeA m a ↔ p ∈ m ∧ p.1 ≠ a := by
  simp [removeA, List.mem_filter]

theorem lookupA_removeA_self (m : List (α × β)) (a : α) :
    lookupA (removeA m a) a = none := by
  induction m with
  | nil => rfl
  | cons p rest ih =>
      obtain ⟨k, v⟩ := p
      by_cases h : k = a
      · simpa [removeA, List.filter_cons, h] using ih
      · simpa [removeA, List.filter_cons, h] using ih

theorem lookupA_removeA_ne (m : List (α × β)) (a b : α) (h : b ≠ a) :
    lookupA (removeA m a) b = lookupA m b := by
  induction m with
  | nil => rfl
  | cons p rest ih =>
      obtain ⟨k, v⟩ := p
      by_cases hk : k = a
      · subst hk
        simpa [removeA, List.filter_cons, Ne.symm h] using ih
      · by_cases hb : k = b
        · simp [removeA, List.filter_cons, hk, hb, h]
        · simpa [removeA, List.filter_cons, hk, hb] using ih

theorem lookupA_mem {m : List (α × β)} {a : α} {v : β}
    (h : lookupA m a = some v) : (a, v) ∈ m := by
  induction m with
  | nil => simp at h
  | cons p rest ih =>
      obtain ⟨k, v'⟩ := p
      by_cases hk : k = a
      · subst hk
        simp at h
        simp [h]
      · simp [hk] at h
        exact List.mem_cons_of_mem _ (ih h)

theorem mem_tryInsertA {m : List (α × β)} {a : α} {v : β} {p : α × β}
    (h : p ∈ tryInsertA m a v) : p = (a, v) ∨ p ∈ m := by
  unfold tryInsertA at h
  split at h
  · exact Or.inr h
  · exact mem_insertA h

@[simp]
theorem mem_insertS {s : List α} {a b : α} :
    b ∈ insertS s a ↔ b = a ∨ b ∈ s := by
  unfold insertS
  split <;> rename_i h
  · constructor
    · exact Or.inr
    · rintro (rfl | hb)
      · exact h
      · exact hb
  · simp [List.mem_cons]

@[simp]
theorem mem_removeS {s : List α} {a b : α} :
    b ∈ removeS s a ↔ b ∈ s ∧ b ≠ a := by
  simp [removeS, List.mem_filter]

theorem insertS_ne_nil (s : List α) (a : α) : insertS s a ≠ [] := by
  unfold insertS
  split <;> rename_i h
  · intro hs
    rw [hs] at h
    simp at h
  · simp

theorem nodesExclusive_of_nodes_eq {d d2 : GraphDiff Id T W}
    (h : d2.nodes = d.nodes) (hd : nodesExclusive d) : nodesExclusive d2 := by
  intro i hi
  rw [h] at hi ⊢
  exact hd i hi

theorem nodesExclusive_add_node (d : GraphDiff Id T W) (i : Id)
    (h : nodesExclusive d) : nodesExclusive (d.add_node i) := by
  intro j hj hmem
  rcases mem_removeS.1 hmem with ⟨hjdel, hji⟩
  refine absurd hjdel (h j ?_)
  unfold GraphDiff.add_node at hj
  simp only [containsKeyA] at hj ⊢
  unfold tryInsertA at hj
  split at hj
  · exact hj
  · rwa [lookupA_insertA_ne _ _ _ _ hji] at hj

theorem nodesExclusive_add_or_update_node (d : GraphDiff Id T W) (i : Id)
    (u : T) (h : nodesExclusive d) :
    nodesExclusive (d.add_or_update_node i u) := by
  intro j hj hmem
  rcases mem_removeS.1 hmem with ⟨hjdel, hji⟩
  refine absurd hjdel (h j ?_)
  unfold GraphDiff.add_or_update_node at hj
  simp only [containsKeyA] at hj ⊢
  split at hj <;> rwa [lookupA_insertA_ne _ _ _ _ hji] at hj

theorem nodesExclusive_set_node_update (d : GraphDiff Id T W) (i : Id)
    (u : T) (h : nodesExclusive d) :
    nodesExclusive (d.set_node_update i u) := by
  intro j hj hmem
  rcases mem_removeS.1 hmem with ⟨hjdel, hji⟩
  refine absurd hjdel (h j ?_)
  unfold GraphDiff.set_node_update at hj
  simp only [containsKeyA] at hj ⊢
  rwa [lookupA_insertA_ne _ _ _ _ hji] at hj

theorem nodesExclusive_delete_node (d : GraphDiff Id T W) (i : Id)
    (h : nodesExclusive d) : nodesExclusive (d.delete_node i) := by
  intro j hj hmem
  unfold GraphDiff.delete_node at hj hmem
  simp only [containsKeyA] at hj
  rcases mem_insertS.1 hmem with hji | hjdel
  · subst hji
    rw [lookupA_removeA_self] at hj
    simp at hj
  · by_cases hji : j = i
    · subst hji
      rw [lookupA_removeA_self] at hj
      simp at hj
    · rw [lookupA_removeA_ne _ _ _ hji] at hj
      exact absurd hjdel (h j hj)

theorem add_edge_ok_nodes {d d2 : GraphDiff Id T W} {f t : Id} {w : W}
    (h : d.add_edge f t w = .ok d2) : d2.nodes = d.nodes := by
  unfold GraphDiff.add_edge at h
  split at h
  · cases h
  · simp only [Except.ok.injEq] at h
    rw [← h]

theorem add_edge_st_nodes (d : GraphDiff Id T W) (f t : Id) (w : W) :
    (d.add_edge_st f t w).nodes = d.nodes := by
  unfold GraphDiff.add_edge_st
  cases hadd : d.add_edge f t w with
  | ok d2 => exact add_edge_ok_nodes hadd
  | error e => rfl

theorem nodesExclusive_add_edge_st (d : GraphDiff Id T W) (f t : Id) (w : W)
    (h : nodesExclusive d) : nodesExclusive (d.add_edge_st f t w) :=
  nodesExclusive_of_nodes_eq (add_edge_st_nodes d f t w) h

theorem nodesExclusive_delete_edge (d : GraphDiff Id T W) (f t : Id)
    (h : nodesExclusive d) : nodesExclusive (d.delete_edge f t) :=
  nodesExclusive_of_nodes_eq rfl h

theorem nodesExclusive_clear (d : GraphDiff Id T W) :
    nodesExclusive (d.clear) := by
  intro i hi
  simp [GraphDiff.clear, containsKeyA] at hi

theorem pres_foldl {σ γ : Type _} {P : σ → Prop} {f : σ → γ → σ}
    (hf : ∀ d x, P d → P (f d x)) :
    ∀ (l : List γ) (d : σ), P d → P (l.foldl f d) := by
  intro l
  induction l with
  | nil => intro d hd; exact hd
  | cons x rest ih => intro d hd; exact ih _ (hf d x hd)

theorem pres_add_edge_row {P : GraphDiff Id T W → Prop}
    (hP : ∀ d f t w, P d → P (GraphDiff.add_edge_st d f t w)) :
    ∀ (l : List (Id × W)) (d : GraphDiff Id T W) (f : Id), P d →
      P (d.add_edge_row f l).1 := by
  intro l
  induction l with
  | nil => intro d f hd; exact hd
  | cons q rest ih =>
      intro d f hd
      obtain ⟨t, w⟩ := q
      have hst := hP d f t w hd
      unfold GraphDiff.add_edge_st at hst
      unfold GraphDiff.add_edge_row
      cases hadd : d.add_edge f t w with
      | ok d2 =>
          rw [hadd] at hst
          exact ih d2 f hst
      | error e => exact hd

theorem pres_add_edges {P : GraphDiff Id T W → Prop}
    (hP : ∀ d f t w, P d → P (GraphDiff.add_edge_st d f t w)) :
    ∀ (l : List (Id × List (Id × W))) (d : GraphDiff Id T W), P d →
      P (d.add_edges l).1 := by
  intro l
  induction l with
  | nil => intro d hd; exact hd
  | cons p rest ih =>
      intro d hd
      obtain ⟨f, tw⟩ := p
      have hrow := pres_add_edge_row hP tw d f hd
      unfold GraphDiff.add_edges
      cases hr : d.add_edge_row f tw with
      | mk d2 oe =>
          rw [hr] at hrow
          cases oe with
          | none => exact ih d2 hrow
          | some e => exact hrow

theorem pres_add_assign {P : GraphDiff Id T W → Prop}
    (h2 : ∀ d i u, P d → P (GraphDiff.add_or_update_node d i u))
    (h4 : ∀ d i, P d → P (GraphDiff.delete_node d i))
    (h5 : ∀ d f t w, P d → P (GraphDiff.add_edge_st d f t w))
    (h6 : ∀ d f t, P d → P (GraphDiff.delete_edge d f t))
    (d other : GraphDiff Id T W) (hd : P d) : P (d.add_assign other) := by
  unfold GraphDiff.add_assign GraphDiff.add_assign_nodes
    GraphDiff.add_assign_edges
  refine pres_foldl (fun d2 p hp =>
    pres_foldl (fun d3 t ht => h6 d3 p.1 t ht) p.2 d2 hp) _ _ ?_
  refine pres_foldl (fun d2 p hp =>
    pres_foldl (fun d3 q hq => h5 d3 p.1 q.1 q.2 hq) p.2 d2 hp) _ _ ?_
  refine pres_foldl (fun d2 i hi => h4 d2 i hi) _ _ ?_
  exact pres_foldl (fun d2 p hp => h2 d2 p.1 p.2 hp) _ _ hd

theorem pres_applyOp {P : GraphDiff Id T W → Prop}
    (h1 : ∀ d i, P d → P (GraphDiff.add_node d i))
    (h2 : ∀ d i u, P d → P (GraphDiff.add_or_update_node d i u))
    (h3 : ∀ d i u, P d → P (GraphDiff.set_node_update d i u))
    (h4 : ∀ d i, P d → P (GraphDiff.delete_node d i))
    (h5 : ∀ d f t w, P d → P (GraphDiff.add_edge_st d f t w))
    (h6 : ∀ d f t, P d → P (GraphDiff.delete_edge d f t))
    (h7 : ∀ d : GraphDiff Id T W, P (d.clear)) :
    ∀ (d : GraphDiff Id T W) (op : Op Id T W), P d → P (applyOp d op) := by
  intro d op hd
  cases op with
  | add_node i => exact h1 d i hd
  | add_or_update_node i u => exact h2 d i u hd
  | set_node_update i u => exact h3 d i u hd
  | delete_node i => exact h4 d i hd
  | add_edge f t w => exact h5 d f t w hd
  | add_edges es => exact pres_add_edges h5 es d hd
  | delete_edge f t => exact h6 d f t hd
  | delete_edges es =>
      exact pres_foldl (fun d2 p hp =>
        pres_foldl (fun d3 t ht => h6 d3 p.1 t ht) p.2 d2 hp) es d hd
  | clear => exact h7 d
  | add_assign other => exact pres_add_assign h2 h4 h5 h6 d other hd

theorem updMapConsistent_of_shrink {d d2 : GraphDiff Id T W}
    (he : d2.edges.new_or_updated = d.edges.new_or_updated)
    (hsub : ∀ x, x ∈ d2.nodes.deleted → x ∈ d.nodes.deleted)
    (h : updMapConsistent d) : updMapConsistent d2 := by
  intro p hp
  rw [he] at hp
  obtain ⟨h1, h2⟩ := h p hp
  refine ⟨fun hc => h1 (hsub _ hc), fun q hq hc => h2 q hq (hsub _ hc)⟩

theorem updMapConsistent_add_node (d : GraphDiff Id T W) (i : Id)
    (h : updMapConsistent d) : updMapConsistent (d.add_node i) := by
  refine updMapConsistent_of_shrink
    (show (d.add_node i).edges.new_or_updated = d.edges.new_or_updated
      from rfl) ?_ h
  intro x hx
  exact (mem_removeS.1 hx).1

theorem updMapConsistent_add_or_update_node (d : GraphDiff Id T W) (i : Id)
    (u : T) (h : updMapConsistent d) :
    updMapConsistent (d.add_or_update_node i u) := by
  refine updMapConsistent_of_shrink
    (show (d.add_or_update_node i u).edges.new_or_updated =
      d.edges.new_or_updated from rfl) ?_ h
  intro x hx
  exact (mem_removeS.1 hx).1

theorem updMapConsistent_set_node_update (d : GraphDiff Id T W) (i : Id)
    (u : T) (h : updMapConsistent d) :
    updMapConsistent (d.set_node_update i u) := by
  refine updMapConsistent_of_shrink
    (show (d.set_node_update i u).edges.new_or_updated =
      d.edges.new_or_updated from rfl) ?_ h
  intro x hx
  exact (mem_removeS.1 hx).1

theorem updMapConsistent_delete_node (d : GraphDiff Id T W) (i : Id)
    (h : updMapConsistent d) : updMapConsistent (d.delete_node i) := by
  intro p hp
  unfold GraphDiff.delete_node at hp ⊢
  simp only [List.mem_map] at hp
  obtain ⟨q, hq, hpq⟩ := hp
  rcases mem_removeA.1 hq with ⟨hqmem, hqne⟩
  obtain ⟨h1, h2⟩ := h q hqmem
  subst hpq
  constructor
  · intro hc
    rcases mem_insertS.1 hc with hc | hc
    · exact hqne hc
    · exact h1 hc
  · intro r hr hc
    rcases mem_removeA.1 hr with ⟨hrmem, hrne⟩
    rcases mem_insertS.1 hc with hc | hc
    · exact hrne hc
    · exact h2 r hrmem hc

theorem add_edge_ok_shape {d d2 : GraphDiff Id T W} {f t : Id} {w : W}
    (h : d.add_edge f t w = .ok d2) :
    f ∉ d.nodes.deleted ∧ t ∉ d.nodes.deleted ∧
    d2.nodes = d.nodes ∧
    d2.edges.new_or_updated = insertA d.edges.new_or_updated f
      (insertA ((lookupA d.edges.new_or_updated f).getD []) t w) ∧
    d2.edges.deleted =
      (let ed1 := match lookupA d.edges.deleted f with
        | some inner => insertA d.edges.deleted f (removeS inner t)
        | none => d.edges.deleted
       match lookupA ed1 f with
        | some inner => if inner.isEmpty then removeA ed1 f else ed1
        | none => ed1) := by
  unfold GraphDiff.add_edge at h
  split at h <;> rename_i hgate
  · cases h
  · push_neg at hgate
    simp only [Except.ok.injEq] at h
    rw [← h]
    exact ⟨hgate.1, hgate.2, rfl, rfl, rfl⟩

theorem updMapConsistent_add_edge_st (d : GraphDiff Id T W) (f t : Id)
    (w : W) (h : updMapConsistent d) :
    updMapConsistent (d.add_edge_st f t w) := by
  unfold GraphDiff.add_edge_st
  cases hadd : d.add_edge f t w with
  | error e => exact h
  | ok d2 =>
      obtain ⟨hf, ht, hn, hu, _⟩ := add_edge_ok_shape hadd
      intro p hp
      rw [hu] at hp
      rw [hn]
      rcases mem_insertA hp with hpnew | hpold
      · subst hpnew
        refine ⟨hf, ?_⟩
        intro q hq
        rcases mem_insertA hq with hqnew | hqold
        · subst hqnew
          exact ht
        · cases hlk : lookupA d.edges.new_or_updated f with
          | none => rw [hlk] at hqold; simp at hqold
          | some inn =>
              rw [hlk] at hqold
              exact (h (f, inn) (lookupA_mem hlk)).2 q hqold
      · exact h p hpold

theorem delete_edge_shape (d : GraphDiff Id T W) (f t : Id) :
    (d.delete_edge f t).nodes = d.nodes ∧
    (d.delete_edge f t).edges.deleted =
      insertA d.edges.deleted f
        (insertS ((lookupA d.edges.deleted f).getD []) t) ∧
    (d.delete_edge f t).edges.new_or_updated =
      (match lookupA d.edges.new_or_updated f with
        | none => d.edges.new_or_updated
        | some tw =>
            if (removeA tw t).isEmpty
            then removeA (insertA d.edges.new_or_updated f (removeA tw t)) f
            else insertA d.edges.new_or_updated f (removeA tw t)) := by
  unfold GraphDiff.delete_edge
  refine ⟨rfl, rfl, ?_⟩
  cases hlk : lookupA d.edges.new_or_updated f <;> simp [hlk]

theorem updMapConsistent_delete_edge (d : GraphDiff Id T W) (f t : Id)
    (h : updMapConsistent d) : updMapConsistent (d.delete_edge f t) := by
  obtain ⟨hn, _, hu⟩ := delete_edge_shape d f t
  intro p hp
  rw [hu] at hp
  rw [show (d.delete_edge f t).nodes.deleted = d.nodes.deleted from
    congrArg NodeDiff.deleted hn]
  cases hlk : lookupA d.edges.new_or_updated f with
  | none =>
      rw [hlk] at hp
      exact h p hp
  | some tw =>
      rw [hlk] at hp
      simp only at hp
      by_cases he : (removeA tw t).isEmpty
      · rw [if_pos he] at hp
        rcases mem_removeA.1 hp with ⟨hpins, hpne⟩
        rcases mem_insertA hpins with hnew | hold
        · exact absurd (congrArg Prod.fst hnew) hpne
        · exact h p hold
      · rw [if_neg he] at hp
        rcases mem_insertA hp with hnew | hold
        · subst hnew
          obtain ⟨h1, h2⟩ := h (f, tw) (lookupA_mem hlk)
          exact ⟨h1, fun q hq => h2 q (mem_removeA.1 hq).1⟩
        · exact h p hold

theorem nodesExclusive_applyOps (ops : List (Op Id T W)) :
    nodesExclusive (applyOps ops) := by
  unfold applyOps
  refine pres_foldl (fun d op hd => pres_applyOp
    nodesExclusive_add_node nodesExclusive_add_or_update_node
    nodesExclusive_set_node_update nodesExclusive_delete_node
    nodesExclusive_add_edge_st nodesExclusive_delete_edge
    nodesExclusive_clear d op hd) ops _ ?_
  intro i hi
  simp [GraphDiff.new, containsKeyA] at hi

theorem updMapConsistent_clear (d : GraphDiff Id T W) :
    updMapConsistent (d.clear) := by
  intro p hp
  simp [GraphDiff.clear] at hp

theorem updMapConsistent_applyOps (ops : List (Op Id T W)) :
    updMapConsistent (applyOps ops) := by
  unfold applyOps
  refine pres_foldl (fun d op hd => pres_applyOp
    updMapConsistent_add_node updMapConsistent_add_or_update_node
    updMapConsistent_set_node_update updMapConsistent_delete_node
    updMapConsistent_add_edge_st updMapConsistent_delete_edge
    updMapConsistent_clear d op hd) ops _ ?_
  intro p hp
  simp [GraphDiff.new] at hp

theorem delMapNonempty_of_edges_deleted_eq {d d2 : GraphDiff Id T W}
    (he : d2.edges.deleted = d.edges.deleted)
    (h : delMapNonempty d) : delMapNonempty d2 := by
  intro p hp
  rw [he] at hp
  exact h p hp

theorem delMapNonempty_add_node (d : GraphDiff Id T W) (i : Id)
    (h : delMapNonempty d) : delMapNonempty (d.add_node i) :=
  delMapNonempty_of_edges_deleted_eq rfl h

theorem delMapNonempty_add_or_update_node (d : GraphDiff Id T W) (i : Id)
    (u : T) (h : delMapNonempty d) :
    delMapNonempty (d.add_or_update_node i u) :=
  delMapNonempty_of_edges_deleted_eq rfl h

theorem delMapNonempty_set_node_update (d : GraphDiff Id T W) (i : Id)
    (u : T) (h : delMapNonempty d) :
    delMapNonempty (d.set_node_update i u) :=
  delMapNonempty_of_edges_deleted_eq rfl h

theorem delMapNonempty_record (ed : List (Id × List Id)) (f i : Id)
    (h : ∀ p ∈ ed, p.2 ≠ []) :
    ∀ p ∈ recordEdgeDeletion ed f i, p.2 ≠ [] := by
  intro p hp
  rcases mem_insertA hp with hnew | hold
  · subst hnew
    exact insertS_ne_nil _ _
  · exact h p hold

theorem delMapNonempty_delete_node (d : GraphDiff Id T W) (i : Id)
    (h : delMapNonempty d) : delMapNonempty (d.delete_node i) := by
  intro p hp
  unfold GraphDiff.delete_node at hp
  simp only at hp
  revert p
  refine pres_foldl (P := fun ed : List (Id × List Id) => ∀ p ∈ ed, p.2 ≠ [])
    (fun ed q hed => ?_) _ _ h
  intro p hp
  split at hp
  · exact delMapNonempty_record ed q.1 i hed p hp
  · exact hed p hp

theorem add_edge_ok_deleted {d d2 : GraphDiff Id T W} {f t : Id} {w : W}
    (h : d.add_edge f t w = .ok d2) :
    d2.edges.deleted =
      (match lookupA d.edges.deleted f with
        | none => d.edges.deleted
        | some inner =>
            if (removeS inner t).isEmpty
            then removeA (insertA d.edges.deleted f (removeS inner t)) f
            else insertA d.edges.deleted f (removeS inner t)) := by
  have hd := (add_edge_ok_shape h).2.2.2.2
  cases hlk : lookupA d.edges.deleted f with
  | none => rw [hd]; simp [hlk]
  | some inner => rw [hd]; simp [hlk, lookupA_insertA_self]

theorem delMapNonempty_add_edge_st (d : GraphDiff Id T W) (f t : Id) (w : W)
    (h : delMapNonempty d) : delMapNonempty (d.add_edge_st f t w) := by
  unfold GraphDiff.add_edge_st
  cases hadd : d.add_edge f t w with
  | error e => exact h
  | ok d2 =>
      have hd := add_edge_ok_deleted hadd
      intro p hp
      rw [hd] at hp
      cases hlk : lookupA d.edges.deleted f with
      | none =>
          simp only [hlk] at hp
          exact h p hp
      | some inner =>
          simp only [hlk] at hp
          by_cases he : (removeS inner t).isEmpty = true
          · rw [if_pos he] at hp
            rcases mem_removeA.1 hp with ⟨hpins, hpne⟩
            rcases mem_insertA hpins with hnew | hold
            · exact absurd (congrArg Prod.fst hnew) hpne
            · exact h p hold
          · rw [if_neg he] at hp
            rcases mem_insertA hp with hnew | hold
            · subst hnew
              simpa [List.isEmpty_iff] using he
            · exact h p hold

theorem delMapNonempty_delete_edge (d : GraphDiff Id T W) (f t : Id)
    (h : delMapNonempty d) : delMapNonempty (d.delete_edge f t) := by
  obtain ⟨_, hd, _⟩ := delete_edge_shape d f t
  intro p hp
  rw [hd] at hp
  rcases mem_insertA hp with hnew | hold
  · subst hnew
    exact insertS_ne_nil _ _
  · exact h p hold

theorem delMapNonempty_clear (d : GraphDiff Id T W) :
    delMapNonempty (d.clear) := by
  intro p hp
  simp [GraphDiff.clear] at hp

theorem delMapNonempty_applyOps (ops : List (Op Id T W)) :
    delMapNonempty (applyOps ops) := by
  unfold applyOps
  refine pres_foldl (fun d op hd => pres_applyOp
    delMapNonempty_add_node delMapNonempty_add_or_update_node
    delMapNonempty_set_node_update delMapNonempty_delete_node
    delMapNonempty_add_edge_st delMapNonempty_delete_edge
    delMapNonempty_clear d op hd) ops _ ?_
  intro p hp
  simp [GraphDiff.new] at hp

/-! ## Codec lemmas -/

theorem charToDigit_digitToChar {d : Nat} (h : d < 10) :
    charToDigit (digitToChar d) = some d := by
  interval_cases d <;> decide

theorem digitToChar_ne_semi (d : Nat) : digitToChar d ≠ ';' := by
  unfold digitToChar
  split <;> decide

theorem digitToChar_ne_dash (d : Nat) : digitToChar d ≠ '-' := by
  unfold digitToChar
  split <;> decide

theorem cNat_digits (ds : List Nat) (rest : List Char)
    (h : ∀ d ∈ ds, d < 10) :
    cNat (ds.map digitToChar ++ ';' :: rest) =
      some (Nat.ofDigits 10 ds, rest) := by
  induction ds with
  | nil => simp [cNat, Nat.ofDigits]
  | cons d ds ih =>
      have hd : d < 10 := h d (List.mem_cons_self d ds)
      have hds : ∀ x ∈ ds, x < 10 := fun x hx => h x (List.mem_cons_of_mem d hx)
      simp only [List.map_cons, List.cons_append]
      unfold cNat
      rw [if_neg (digitToChar_ne_semi d), charToDigit_digitToChar hd,
        ih hds]
      simp [Nat.ofDigits_cons]

theorem cNat_cEncNat (n : Nat) (rest : List Char) :
    cNat (cEncNat n ++ rest) = some (n, rest) := by
  unfold cEncNat
  rw [List.append_assoc, List.singleton_append,
    cNat_digits (Nat.digits 10 n) rest
      (fun d hd => Nat.digits_lt_base (by norm_num) hd),
    Nat.ofDigits_digits]

theorem cString_cEncString (s : String) (rest : List Char) :
    cString (cEncString s ++ rest) = some (s, rest) := by
  unfold cEncString cString
  rw [List.append_assoc, cNat_cEncNat]
  have hlen : s.length = s.data.length := rfl
  rw [Option.some_bind']
  rw [if_pos (by rw [hlen, List.length_append]; exact Nat.le_add_right _ _)]
  rw [hlen, List.take_left, List.drop_left]

theorem head_cEncNat_ne_dash (n : Nat) (rest : List Char) :
    ∃ c cs, cEncNat n ++ rest = c :: cs ∧ c ≠ '-' := by
  unfold cEncNat
  cases hds : Nat.digits 10 n with
  | nil => exact ⟨';', rest, rfl, by decide⟩
  | cons d ds =>
      exact ⟨digitToChar d, ds.map digitToChar ++ [';'] ++ rest, rfl,
        digitToChar_ne_dash d⟩

theorem cRat_cEncRat (q : ℚ) (rest : List Char) :
    cRat (cEncRat q ++ rest) = some (q, rest) := by
  unfold cEncRat
  by_cases hq : q.num < 0
  · rw [if_pos hq]
    show cRat ('-' :: (cEncNat q.num.natAbs ++ cEncNat q.den ++ rest)) = _
    simp only [cRat, if_pos]
    rw [List.append_assoc, cNat_cEncNat, Option.some_bind', cNat_cEncNat]
    simp only [Option.map_some']
    have h1 : ((q.num.natAbs : ℚ)) = -(q.num : ℚ) := by
      rw [← @Int.cast_natCast ℚ _ q.num.natAbs,
        Int.ofNat_natAbs_of_nonpos (le_of_lt hq), Int.cast_neg]
    rw [h1, neg_div, neg_neg, Rat.num_div_den]
  · rw [if_neg hq, List.nil_append]
    obtain ⟨c, cs, heq, hc⟩ := head_cEncNat_ne_dash q.num.natAbs
      (cEncNat q.den ++ rest)
    rw [List.append_assoc, heq]
    simp only [cRat]
    rw [if_neg hc, ← heq, cNat_cEncNat, Option.some_bind', cNat_cEncNat]
    simp only [Option.map_some']
    have h1 : ((q.num.natAbs : ℚ)) = (q.num : ℚ) := by
      rw [← @Int.cast_natCast ℚ _ q.num.natAbs,
        Int.natAbs_of_nonneg (not_lt.1 hq)]
    rw [h1, Rat.num_div_den]

theorem cBool_cEncBool (b : Bool) (rest : List Char) :
    cBool (cEncBool b ++ rest) = some (b, rest) := by
  cases b <;> rfl

theorem parseOpt_optField (tg : Char)
    (p : List Char → Option (γ × List Char)) (enc : γ → List Char)
    (v : Option γ) (rest : List Char)
    (hp : ∀ a r, p (enc a ++ r) = some (a, r))
    (hne : ∀ c, rest.head? = some c → c ≠ tg) :
    parseOpt tg p (optField tg enc v ++ rest) = some (v, rest) := by
  cases v with
  | some a =>
      show parseOpt tg p (tg :: (enc a ++ rest)) = _
      simp only [parseOpt, if_true]
      rw [hp, Option.map_some']
  | none =>
      show parseOpt tg p ([] ++ rest) = _
      rw [List.nil_append]
      cases rest with
      | nil => rfl
      | cons c cs =>
          simp only [parseOpt]
          rw [if_neg (hne c rfl)]

theorem head_optField {tg : Char} {enc : γ → List Char} {v : Option γ}
    {rest : List Char} {c : Char}
    (h : (optField tg enc v ++ rest).head? = some c) :
    c = tg ∨ rest.head? = some c := by
  cases v with
  | some a =>
      left
      have h2 : (tg :: (enc a ++ rest)).head? = some c := h
      simp at h2
      exact h2.symm
  | none =>
      right
      rwa [show optField tg enc (none : Option γ) = [] from rfl,
        List.nil_append] at h

theorem head_optField_nil {tg : Char} {enc : γ → List Char} {v : Option γ}
    {c : Char} (h : (optField tg enc v).head? = some c) : c = tg := by
  cases v with
  | some a =>
      have h2 : (tg :: enc a).head? = some c := h
      simp at h2
      exact h2.symm
  | none => simp [optField] at h

theorem jsonDecode_jsonEncode (u : NodeUpdate) :
    jsonDecode (jsonEncode u) = some u := by
  obtain ⟨l, sz, url, red, green, blue, sl⟩ := u
  have hd7 : ∀ c : Char,
      (optField 'h' cEncBool sl).head? = some c → c = 'h' :=
    fun c hc => head_optField_nil hc
  have hd6 : ∀ c : Char,
      (optField 'b' cEncNat blue ++
        optField 'h' cEncBool sl).head? = some c → c = 'b' ∨ c = 'h' := by
    intro c hc
    rcases head_optField hc with h | h
    · exact Or.inl h
    · exact Or.inr (hd7 c h)
  have hd5 : ∀ c : Char,
      (optField 'g' cEncNat green ++ (optField 'b' cEncNat blue ++
        optField 'h' cEncBool sl)).head? = some c →
        c = 'g' ∨ c = 'b' ∨ c = 'h' := by
    intro c hc
    rcases head_optField hc with h | h
    · exact Or.inl h
    · exact Or.inr (hd6 c h)
  have hd4 : ∀ c : Char,
      (optField 'r' cEncNat red ++ (optField 'g' cEncNat green ++
        (optField 'b' cEncNat blue ++
        optField 'h' cEncBool sl))).head? = some c →
        c = 'r' ∨ c = 'g' ∨ c = 'b' ∨ c = 'h' := by
    intro c hc
    rcases head_optField hc with h | h
    · exact Or.inl h
    · exact Or.inr (hd5 c h)
  have hd3 : ∀ c : Char,
      (optField 'u' cEncString url ++ (optField 'r' cEncNat red ++
        (optField 'g' cEncNat green ++ (optField 'b' cEncNat blue ++
        optField 'h' cEncBool sl)))).head? = some c →
        c = 'u' ∨ c = 'r' ∨ c = 'g' ∨ c = 'b' ∨ c = 'h' := by
    intro c hc
    rcases head_optField hc with h | h
    · exact Or.inl h
    · exact Or.inr (hd4 c h)
  have hd2 : ∀ c : Char,
      (optField 's' cEncRat sz ++ (optField 'u' cEncString url ++
        (optField 'r' cEncNat red ++ (optField 'g' cEncNat green ++
        (optField 'b' cEncNat blue ++
        optField 'h' cEncBool sl))))).head? = some c →
        c = 's' ∨ c = 'u' ∨ c = 'r' ∨ c = 'g' ∨ c = 'b' ∨ c = 'h' := by
    intro c hc
    rcases head_optField hc with h | h
    · exact Or.inl h
    · exact Or.inr (hd3 c h)
  have h7 : parseOpt 'h' cBool (optField 'h' cEncBool sl) =
      some (sl, []) := by
    have h := parseOpt_optField 'h' cBool cEncBool sl [] cBool_cEncBool
      (fun c hc => by simp at hc)
    rwa [List.append_nil] at h
  have h6 := parseOpt_optField 'b' cNat cEncNat blue
    (optField 'h' cEncBool sl) cNat_cEncNat
    (fun c hc => by rcases hd7 c hc with rfl; decide)
  have h5 := parseOpt_optField 'g' cNat cEncNat green
    (optField 'b' cEncNat blue ++ optField 'h' cEncBool sl) cNat_cEncNat
    (fun c hc => by rcases hd6 c hc with rfl | rfl <;> decide)
  have h4 := parseOpt_optField 'r' cNat cEncNat red
    (optField 'g' cEncNat green ++ (optField 'b' cEncNat blue ++
      optField 'h' cEncBool sl)) cNat_cEncNat
    (fun c hc => by rcases hd5 c hc with rfl | rfl | rfl <;> decide)
  have h3 := parseOpt_optField 'u' cString cEncString url
    (optField 'r' cEncNat red ++ (optField 'g' cEncNat green ++
      (optField 'b' cEncNat blue ++ optField 'h' cEncBool sl)))
    cString_cEncString
    (fun c hc => by rcases hd4 c hc with rfl | rfl | rfl | rfl <;> decide)
  have h2 := parseOpt_optField 's' cRat cEncRat sz
    (optField 'u' cEncString url ++ (optField 'r' cEncNat red ++
      (optField 'g' cEncNat green ++ (optField 'b' cEncNat blue ++
      optField 'h' cEncBool sl)))) cRat_cEncRat
    (fun c hc => by
      rcases hd3 c hc with rfl | rfl | rfl | rfl | rfl <;> decide)
  have h1 := parseOpt_optField 'l' cString cEncString l
    (optField 's' cEncRat sz ++ (optField 'u' cEncString url ++
      (optField 'r' cEncNat red ++ (optField 'g' cEncNat green ++
      (optField 'b' cEncNat blue ++ optField 'h' cEncBool sl)))))
    cString_cEncString
    (fun c hc => by
      rcases hd2 c hc with rfl | rfl | rfl | rfl | rfl | rfl <;> decide)
  have hdata : (jsonEncode ⟨l, sz, url, red, green, blue, sl⟩).data =
      optField 'l' cEncString l ++
        (optField 's' cEncRat sz ++
        (optField 'u' cEncString url ++
        (optField 'r' cEncNat red ++
        (optField 'g' cEncNat green ++
        (optField 'b' cEncNat blue ++
        optField 'h' cEncBool sl))))) := rfl
  show jsonDecodeL (jsonEncode ⟨l, sz, url, red, green, blue, sl⟩).data = _
  unfold jsonDecodeL
  simp only [hdata, h1, h2, h3, h4, h5, h6, h7]
  simp

theorem pNat_digits (ds : List Nat) (rest : List Nat)
    (h : ∀ d ∈ ds, d < 255) :
    pNat (ds ++ 255 :: rest) = some (Nat.ofDigits 255 ds, rest) := by
  induction ds with
  | nil => simp [pNat, Nat.ofDigits]
  | cons d ds ih =>
      have hd : d < 255 := h d (List.mem_cons_self d ds)
      have hds : ∀ x ∈ ds, x < 255 := fun x hx => h x (List.mem_cons_of_mem d hx)
      simp only [List.cons_append]
      simp only [pNat]
      rw [if_neg (by omega), if_pos hd, ih hds]
      simp [Nat.ofDigits_cons]

theorem pNat_encNat (n : Nat) (rest : List Nat) :
    pNat (encNat n ++ rest) = some (n, rest) := by
  unfold encNat
  rw [List.append_assoc, List.singleton_append,
    pNat_digits (Nat.digits 255 n) rest
      (fun d hd => Nat.digits_lt_base (by norm_num) hd),
    Nat.ofDigits_digits]

theorem pCount_enc (p : List Nat → Option (γ × List Nat))
    (enc : γ → List Nat) (hp : ∀ x r, p (enc x ++ r) = some (x, r)) :
    ∀ (xs : List γ) (rest : List Nat),
      pCount p xs.length ((xs.map enc).flatten ++ rest) = some (xs, rest) := by
  intro xs
  induction xs with
  | nil => intro rest; simp [pCount]
  | cons x xs ih =>
      intro rest
      simp only [List.map_cons, List.flatten_cons, List.length_cons,
        List.append_assoc]
      simp only [pCount]
      rw [hp, Option.some_bind', ih rest, Option.map_some']

theorem pListN_enc (p : List Nat → Option (γ × List Nat))
    (enc : γ → List Nat) (hp : ∀ x r, p (enc x ++ r) = some (x, r))
    (xs : List γ) (rest : List Nat) :
    pListN p (encListN enc xs ++ rest) = some (xs, rest) := by
  unfold encListN pListN
  rw [List.append_assoc, pNat_encNat, Option.some_bind',
    pCount_enc p enc hp xs rest]

theorem pPairN_enc (p1 : List Nat → Option (γ × List Nat))
    (p2 : List Nat → Option (δ × List Nat))
    (e1 : γ → List Nat) (e2 : δ → List Nat)
    (hp1 : ∀ x r, p1 (e1 x ++ r) = some (x, r))
    (hp2 : ∀ x r, p2 (e2 x ++ r) = some (x, r))
    (x : γ × δ) (rest : List Nat) :
    pPairN p1 p2 (encPairN e1 e2 x ++ rest) = some (x, rest) := by
  unfold encPairN pPairN
  rw [List.append_assoc, hp1, Option.some_bind', hp2, Option.map_some']

theorem pCharN_enc (c : Char) (rest : List Nat) :
    pCharN (encCharN c ++ rest) = some (c, rest) := by
  unfold encCharN pCharN
  rw [pNat_encNat, Option.map_some', Char.ofNat_toNat]

theorem pStringN_enc (s : String) (rest : List Nat) :
    pStringN (encStringN s ++ rest) = some (s, rest) := by
  unfold encStringN pStringN
  rw [pListN_enc pCharN encCharN pCharN_enc, Option.map_some']

theorem pRatN_enc (q : ℚ) (rest : List Nat) :
    pRatN (encRatN q ++ rest) = some (q, rest) := by
  unfold encRatN
  by_cases hq : q.num < 0
  · rw [if_pos hq]
    show pRatN (1 :: (encNat q.num.natAbs ++ encNat q.den ++ rest)) = _
    simp only [pRatN]
    rw [List.append_assoc, pNat_encNat, Option.some_bind', pNat_encNat,
      Option.map_some']
    have h1 : ((q.num.natAbs : ℚ)) = -(q.num : ℚ) := by
      rw [← @Int.cast_natCast ℚ _ q.num.natAbs,
        Int.ofNat_natAbs_of_nonpos (le_of_lt hq), Int.cast_neg]
    rw [h1, neg_div, neg_neg, Rat.num_div_den]
  · rw [if_neg hq]
    show pRatN (0 :: (encNat q.num.natAbs ++ encNat q.den ++ rest)) = _
    simp only [pRatN]
    rw [List.append_assoc, pNat_encNat, Option.some_bind', pNat_encNat,
      Option.map_some']
    have h1 : ((q.num.natAbs : ℚ)) = (q.num : ℚ) := by
      rw [← @Int.cast_natCast ℚ _ q.num.natAbs,
        Int.natAbs_of_nonneg (not_lt.1 hq)]
    rw [h1, Rat.num_div_den]

theorem decodeEntries_enc (l : List (Nat × NodeUpdate)) :
    decodeEntries (l.map (fun p => (p.1, jsonEncode p.2))) = some l := by
  induction l with
  | nil => rfl
  | cons p rest ih =>
      obtain ⟨i, u⟩ := p
      simp only [List.map_cons, decodeEntries, jsonDecode_jsonEncode, ih,
        Option.map_some']

theorem pEntry_enc (x : Nat × String) (rest : List Nat) :
    pPairN pNat pStringN (encPairN encNat encStringN x ++ rest) =
      some (x, rest) :=
  pPairN_enc pNat pStringN encNat encStringN pNat_encNat pStringN_enc x rest

theorem pEnuRow_enc (x : Nat × List (Nat × ℚ)) (rest : List Nat) :
    pPairN pNat (pListN (pPairN pNat pRatN))
      (encPairN encNat (encListN (encPairN encNat encRatN)) x ++ rest) =
      some (x, rest) :=
  pPairN_enc pNat (pListN (pPairN pNat pRatN)) encNat
    (encListN (encPairN encNat encRatN)) pNat_encNat
    (pListN_enc (pPairN pNat pRatN) (encPairN encNat encRatN)
      (pPairN_enc pNat pRatN encNat encRatN pNat_encNat pRatN_enc))
    x rest

theorem pEdRow_enc (x : Nat × List Nat) (rest : List Nat) :
    pPairN pNat (pListN pNat)
      (encPairN encNat (encListN encNat) x ++ rest) = some (x, rest) :=
  pPairN_enc pNat (pListN pNat) encNat (encListN encNat) pNat_encNat
    (pListN_enc pNat encNat pNat_encNat) x rest

theorem outerParse_enc_parts (jm : List (Nat × String)) (del : List Nat)
    (e : EdgeDiff Nat ℚ) :
    outerParse (encListN (encPairN encNat encStringN) jm ++
        (encListN encNat del ++ encEdgeDiffN e)) =
      some ((jm, del, e), []) := by
  have h1 := pListN_enc (pPairN pNat pStringN) (encPairN encNat encStringN)
    pEntry_enc jm (encListN encNat del ++ encEdgeDiffN e)
  have h2 := pListN_enc pNat encNat pNat_encNat del (encEdgeDiffN e)
  have h3 := pListN_enc (pPairN pNat (pListN (pPairN pNat pRatN)))
    (encPairN encNat (encListN (encPairN encNat encRatN))) pEnuRow_enc
    e.new_or_updated
    (encListN (encPairN encNat (encListN encNat)) e.deleted)
  have h4 : pListN (pPairN pNat (pListN pNat))
      (encListN (encPairN encNat (encListN encNat)) e.deleted) =
      some (e.deleted, []) := by
    have h := pListN_enc (pPairN pNat (pListN pNat))
      (encPairN encNat (encListN encNat)) pEdRow_enc e.deleted []
    rwa [List.append_nil] at h
  unfold outerParse
  simp only [encEdgeDiffN] at h1 h2 ⊢
  simp only [h1, h2, h3, h4]

theorem outerParse_enc (d : GraphDiff Nat NodeUpdate ℚ) :
    outerParse (graph_diff_to_bytes d) =
      some ((d.nodes.new_or_updated.map (fun p => (p.1, jsonEncode p.2)),
        d.nodes.deleted, d.edges), []) := by
  unfold graph_diff_to_bytes
  exact outerParse_enc_parts _ _ _

theorem decodeEntries_none (l : List (Nat × String))
    (h : ∃ p ∈ l, jsonDecode p.2 = none) : decodeEntries l = none := by
  induction l with
  | nil => simp at h
  | cons q rest ih =>
      obtain ⟨i, s⟩ := q
      obtain ⟨p, hp, hbad⟩ := h
      rcases List.mem_cons.1 hp with hp | hp
      · subst hp
        simp only [decodeEntries, hbad]
      · simp only [decodeEntries]
        cases hj : jsonDecode s with
        | none => rfl
        | some u => rw [ih ⟨p, hp, hbad⟩]; rfl

/-! ## Claim theorems -/

/-- C1, counterexample: the claimed invariant (no edge entry in either the
edge update map or the edge deletion map references an endpoint in the node
deletion set — exactly the source's `is_internally_consistent` checker)
fails on a reachable state: from the empty diff, `add_edge 1 2 1.0`
followed by `delete_node 2` leaves the edge-deletion entry `(1, {2})`
while `2` is in the node deletion set. -/
theorem claim1_counterexample :
    ¬ (applyOps [Op.add_edge 1 2 (1 : ℚ), Op.delete_node 2] :
        GraphDiff Nat NodeUpdate ℚ).is_internally_consistent := by
  decide

/-- C1, amended: for every `GraphDiff` built from the empty diff by any
sequence of the public mutation operations, no entry of the edge UPDATE map
references a source or destination id present in the node deletion set.
(The edge deletion map may reference tombstoned ids: `delete_node` itself
records deletions `(source, id)` for the node `id` it tombstones.) -/
theorem claim1_amended_update_map_consistent (ops : List (Op Id T W)) :
    ∀ p ∈ (applyOps ops).edges.new_or_updated,
      p.1 ∉ (applyOps ops).nodes.deleted ∧
      ∀ q ∈ p.2, q.1 ∉ (applyOps ops).nodes.deleted :=
  updMapConsistent_applyOps ops

/-- C1, witness: a concrete instance of the amended invariant. -/
theorem claim1_witness :
    (1 : Nat) ∉ (applyOps [Op.add_edge 1 2 (5 : ℚ)] :
      GraphDiff Nat NodeUpdate ℚ).nodes.deleted :=
  (claim1_amended_update_map_consistent [Op.add_edge 1 2 (5 : ℚ)]
    (1, [(2, 5)]) (by decide)).1

/-- C3: for every `GraphDiff` built from the empty diff by any sequence of
the public mutation operations, no node id is simultaneously a key of the
node update map and a member of the node deletion set. -/
theorem claim3_tombstone_exclusivity (ops : List (Op Id T W)) (i : Id) :
    ¬ (containsKeyA (applyOps ops).nodes.new_or_updated i = true ∧
       i ∈ (applyOps ops).nodes.deleted) :=
  fun hc => nodesExclusive_applyOps ops i hc.1 hc.2

/-- C3, witness: concrete instance after `add_node 1`. -/
theorem claim3_witness :
    (1 : Nat) ∉ (applyOps [Op.add_node 1] :
      GraphDiff Nat NodeUpdate ℚ).nodes.deleted :=
  fun hmem =>
    claim3_tombstone_exclusivity
      ([Op.add_node 1] : List (Op Nat NodeUpdate ℚ)) 1 ⟨by decide, hmem⟩

/-- C4, counterexample: the claimed pruning invariant fails on a reachable
state: from the empty diff, `add_edge 1 2 1.0` then `delete_node 2` leaves
the source key `1` mapped to an EMPTY inner map in the edge update map
(`delete_node` removes the destination without pruning). -/
theorem claim4_counterexample :
    (1, ([] : List (Nat × ℚ))) ∈
      (applyOps [Op.add_edge 1 2 (1 : ℚ), Op.delete_node 2] :
        GraphDiff Nat NodeUpdate ℚ).edges.new_or_updated := by
  decide

/-- C4, amended: for every `GraphDiff` built from the empty diff by any
sequence of the public mutation operations, no source key of the edge
DELETION map maps to an empty inner set.  (For the edge update map the
claimed invariant fails: `delete_node` can empty an inner map without
removing its source key, as the counterexample shows; `add_edge` and
`delete_edge` do prune the entries they empty.) -/
theorem claim4_amended_deletion_map_nonempty (ops : List (Op Id T W)) :
    ∀ p ∈ (applyOps ops).edges.deleted, p.2 ≠ [] :=
  delMapNonempty_applyOps ops

/-- C4, witness: concrete instance after `delete_edge 1 2`. -/
theorem claim4_witness :
    ([2] : List Nat) ≠ [] :=
  claim4_amended_deletion_map_nonempty
    ([Op.delete_edge 1 2] : List (Op Nat NodeUpdate ℚ)) (1, [2]) (by decide)

/-- C6: on the concrete diffs of the composition example — `d1` adds edge
`1→2` weight `1.0` and edge `1→3` weight `2.0`; `d2` adds edge `1→2`
weight `5.0` and deletes edge `1→3` — after `d1 += d2` the update map
sends `1→2` to `5.0`, has no entry `1→3`, and the deletion map holds `3`
under source `1`.  (Weights are modelled in `ℚ`; the library only stores
and compares them.) -/
theorem claim6_add_assign_example :
    let d1 : GraphDiff Nat NodeUpdate ℚ :=
      applyOps [Op.add_edge 1 2 1, Op.add_edge 1 3 2]
    let d2 : GraphDiff Nat NodeUpdate ℚ :=
      applyOps [Op.add_edge 1 2 5, Op.delete_edge 1 3]
    let d := d1.add_assign d2
    lookupA ((lookupA d.edges.new_or_updated 1).getD []) 2 = some 5 ∧
    lookupA ((lookupA d.edges.new_or_updated 1).getD []) 3 = none ∧
    3 ∈ (lookupA d.edges.deleted 1).getD [] := by
  decide

/-- C2: `add_edge(from, to, w)` errors exactly when an endpoint is
tombstoned; on error the whole diff is unchanged; on success it removes
`(from, to)` from the edge deletion map, pruning the source's deletion
entry if it becomes empty, and upserts the weight under `from → to`. -/
theorem claim2_add_edge_spec (d : GraphDiff Id T W) (f t : Id) (w : W) :
    ((∃ e, d.add_edge f t w = .error e) ↔
      (f ∈ d.nodes.deleted ∨ t ∈ d.nodes.deleted)) ∧
    ((f ∈ d.nodes.deleted ∨ t ∈ d.nodes.deleted) →
      d.add_edge f t w = .error addEdgeErr ∧ d.add_edge_st f t w = d) ∧
    (f ∉ d.nodes.deleted → t ∉ d.nodes.deleted →
      ∃ d2, d.add_edge f t w = .ok d2 ∧
        d2.nodes = d.nodes ∧
        lookupA d2.edges.new_or_updated f =
          some (insertA ((lookupA d.edges.new_or_updated f).getD []) t w) ∧
        (∀ g, g ≠ f →
          lookupA d2.edges.new_or_updated g =
            lookupA d.edges.new_or_updated g) ∧
        lookupA d2.edges.deleted f =
          (if (removeS ((lookupA d.edges.deleted f).getD []) t).isEmpty
           then none
           else some (removeS ((lookupA d.edges.deleted f).getD []) t)) ∧
        (∀ g, g ≠ f →
          lookupA d2.edges.deleted g = lookupA d.edges.deleted g)) := by
  by_cases hgate : f ∈ d.nodes.deleted ∨ t ∈ d.nodes.deleted
  · have herr : d.add_edge f t w = .error addEdgeErr := by
      unfold GraphDiff.add_edge
      rw [if_pos hgate]
    refine ⟨⟨fun _ => hgate, fun _ => ⟨addEdgeErr, herr⟩⟩,
      fun _ => ⟨herr, ?_⟩, fun hf ht => ?_⟩
    · unfold GraphDiff.add_edge_st
      rw [herr]
    · rcases hgate with hg | hg
      · exact absurd hg hf
      · exact absurd hg ht
  · have hok : ∃ d2, d.add_edge f t w = .ok d2 := by
      unfold GraphDiff.add_edge
      rw [if_neg hgate]
      exact ⟨_, rfl⟩
    obtain ⟨d2, hd2⟩ := hok
    refine ⟨⟨?_, fun hmem => absurd hmem hgate⟩,
      fun hmem => absurd hmem hgate, fun _ _ => ?_⟩
    · rintro ⟨e, he⟩
      rw [hd2] at he
      cases he
    · obtain ⟨_, _, hn, hu, _⟩ := add_edge_ok_shape hd2
      have hdel := add_edge_ok_deleted hd2
      refine ⟨d2, hd2, hn, ?_, ?_, ?_, ?_⟩
      · rw [hu, lookupA_insertA_self]
      · intro g hg
        rw [hu, lookupA_insertA_ne _ _ _ _ hg]
      · rw [hdel]
        cases hlk : lookupA d.edges.deleted f with
        | none => simp [hlk, removeS]
        | some inner =>
            simp only [hlk, Option.getD_some]
            by_cases he : (removeS inner t).isEmpty = true
            · rw [if_pos he, if_pos he, lookupA_removeA_self]
            · rw [if_neg he, if_neg he, lookupA_insertA_self]
      · intro g hg
        rw [hdel]
        cases hlk : lookupA d.edges.deleted f with
        | none => simp [hlk]
        | some inner =>
            simp only [hlk]
            by_cases he : (removeS inner t).isEmpty = true
            · rw [if_pos he, lookupA_removeA_ne _ _ _ hg,
                lookupA_insertA_ne _ _ _ _ hg]
            · rw [if_neg he, lookupA_insertA_ne _ _ _ _ hg]

/-- C2, witness: with node `1` tombstoned, `add_edge 1 2 5.0` errors and
the diff is unchanged. -/
theorem claim2_witness :
    ((applyOps [Op.delete_node 1] : GraphDiff Nat NodeUpdate ℚ).add_edge 1 2 5
        = .error addEdgeErr) ∧
    ((applyOps [Op.delete_node 1] :
        GraphDiff Nat NodeUpdate ℚ).add_edge_st 1 2 5
        = applyOps [Op.delete_node 1]) :=
  (claim2_add_edge_spec
    (applyOps [Op.delete_node 1] : GraphDiff Nat NodeUpdate ℚ) 1 2 5).2.1
    (by decide)

/-- Lookup through the destination-stripping map of `delete_node`. -/
theorem lookupA_map_removeA (l : List (Id × List (Id × W))) (i a : Id) :
    lookupA (l.map (fun p => (p.1, removeA p.2 i))) a =
      (lookupA l a).map (fun x => removeA x i) := by
  induction l with
  | nil => rfl
  | cons p rest ih =>
      obtain ⟨k, v⟩ := p
      by_cases hk : k = a <;> simp [hk, ih]

theorem mem_record_self (ed : List (Id × List Id)) (f i : Id) :
    i ∈ (lookupA (recordEdgeDeletion ed f i) f).getD [] := by
  unfold recordEdgeDeletion
  rw [lookupA_insertA_self]
  simp

theorem mem_record_mono (ed : List (Id × List Id)) (g f i : Id)
    (h : i ∈ (lookupA ed f).getD []) :
    i ∈ (lookupA (recordEdgeDeletion ed g i) f).getD [] := by
  unfold recordEdgeDeletion
  by_cases hgf : g = f
  · subst hgf
    rw [lookupA_insertA_self]
    simp only [Option.getD_some]
    exact mem_insertS.2 (Or.inr h)
  · rw [lookupA_insertA_ne _ _ _ _ (Ne.symm hgf)]
    exact h

theorem delete_node_fold_mono (i f : Id)
    (l : List (Id × List (Id × W))) (acc : List (Id × List Id))
    (h : i ∈ (lookupA acc f).getD []) :
    i ∈ (lookupA (l.foldl
      (fun acc2 p => if containsKeyA p.2 i
                     then recordEdgeDeletion acc2 p.1 i else acc2) acc)
      f).getD [] := by
  refine pres_foldl (P := fun ed : List (Id × List Id) =>
    i ∈ (lookupA ed f).getD []) (fun ed q hed => ?_) l acc h
  split
  · exact mem_record_mono ed q.1 f i hed
  · exact hed

theorem delete_node_fold_records (i : Id)
    (l : List (Id × List (Id × W))) :
    ∀ (acc : List (Id × List Id)), ∀ q ∈ l, containsKeyA q.2 i = true →
      i ∈ (lookupA (l.foldl
        (fun acc2 p => if containsKeyA p.2 i
                       then recordEdgeDeletion acc2 p.1 i else acc2) acc)
        q.1).getD [] := by
  induction l with
  | nil => intro acc q hq; simp at hq
  | cons p rest ih =>
      intro acc q hq hkey
      rcases List.mem_cons.1 hq with hq | hq
      · subst hq
        simp only [List.foldl_cons, hkey, if_pos]
        exact delete_node_fold_mono i q.1 rest _ (mem_record_self acc q.1 i)
      · simp only [List.foldl_cons]
        exact ih _ q hq hkey

/-- C5: after `delete_node(id)`, `id` has no entry in the node update map,
no edge with `id` as source or destination remains in the edge update map,
an edge deletion `(source, id)` is recorded for every other source whose
update map contained `id` as a destination, and `id` is tombstoned. -/
theorem claim5_delete_node (d : GraphDiff Id T W) (i : Id) :
    lookupA ((d.delete_node i).nodes.new_or_updated) i = none ∧
    lookupA ((d.delete_node i).edges.new_or_updated) i = none ∧
    (∀ p ∈ (d.delete_node i).edges.new_or_updated, lookupA p.2 i = none) ∧
    (∀ f inner, (f, inner) ∈ d.edges.new_or_updated → f ≠ i →
      containsKeyA inner i = true →
      i ∈ (lookupA ((d.delete_node i).edges.deleted) f).getD []) ∧
    i ∈ (d.delete_node i).nodes.deleted := by
  refine ⟨?_, ?_, ?_, ?_, ?_⟩
  · exact lookupA_removeA_self _ _
  · show lookupA ((removeA d.edges.new_or_updated i).map
      (fun p => (p.1, removeA p.2 i))) i = none
    rw [lookupA_map_removeA, lookupA_removeA_self]
    rfl
  · intro p hp
    have hp2 : p ∈ (removeA d.edges.new_or_updated i).map
        (fun p => (p.1, removeA p.2 i)) := hp
    rcases List.mem_map.1 hp2 with ⟨q, _, hpq⟩
    rw [← hpq]
    exact lookupA_removeA_self _ _
  · intro f inner hmem hne hkey
    have hmem2 : (f, inner) ∈ removeA d.edges.new_or_updated i :=
      mem_removeA.2 ⟨hmem, hne⟩
    exact delete_node_fold_records i (removeA d.edges.new_or_updated i)
      d.edges.deleted (f, inner) hmem2 hkey
  · exact mem_insertS.2 (Or.inl rfl)

/-- C5, witness: deleting node `2` after `add_edge 1 2 5.0` records the
edge deletion `(1, 2)` and tombstones `2`. -/
theorem claim5_witness :
    2 ∈ (lookupA (((applyOps [Op.add_edge 1 2 (5 : ℚ)] :
        GraphDiff Nat NodeUpdate ℚ).delete_node 2).edges.deleted) 1).getD []
    ∧ 2 ∈ ((applyOps [Op.add_edge 1 2 (5 : ℚ)] :
        GraphDiff Nat NodeUpdate ℚ).delete_node 2).nodes.deleted := by
  have h := claim5_delete_node
    (applyOps [Op.add_edge 1 2 (5 : ℚ)] : GraphDiff Nat NodeUpdate ℚ) 2
  exact ⟨h.2.2.2.1 1 [(2, 5)] (by decide) (by decide) (by decide), h.2.2.2.2⟩

theorem unchecked_fold_untouched (es : List (Id × List (Id × W))) :
    ∀ (m : List (Id × List (Id × W))) (g : Id), g ∉ es.map Prod.fst →
      lookupA (es.foldl
        (fun m2 p => insertA m2 p.1 (extendA ((lookupA m2 p.1).getD []) p.2))
        m) g = lookupA m g := by
  induction es with
  | nil => intro m g _; rfl
  | cons p rest ih =>
      intro m g hg
      simp only [List.map_cons, List.mem_cons, not_or] at hg
      simp only [List.foldl_cons]
      rw [ih _ g hg.2, lookupA_insertA_ne _ _ _ _ hg.1]

theorem unchecked_fold_entries (es : List (Id × List (Id × W))) :
    ∀ (m : List (Id × List (Id × W))), (es.map Prod.fst).Nodup →
      ∀ p ∈ es, lookupA (es.foldl
        (fun m2 p2 => insertA m2 p2.1
          (extendA ((lookupA m2 p2.1).getD []) p2.2)) m) p.1 =
        some (extendA ((lookupA m p.1).getD []) p.2) := by
  induction es with
  | nil => intro m _ p hp; simp at hp
  | cons q rest ih =>
      intro m hnd p hp
      simp only [List.map_cons, List.nodup_cons] at hnd
      simp only [List.foldl_cons]
      rcases List.mem_cons.1 hp with hp | hp
      · subst hp
        rw [unchecked_fold_untouched rest _ p.1 hnd.1,
          lookupA_insertA_self]
      · have hne : p.1 ≠ q.1 := by
          intro hc
          exact hnd.1 (hc ▸ List.mem_map_of_mem Prod.fst hp)
        rw [ih _ hnd.2 p hp, lookupA_insertA_ne _ _ _ _ hne]

/-- C10: `add_edges_unchecked` always returns `Ok`, leaves the node diff
and the edge deletion map untouched, and only extends the edge update map
source by source — with no tombstone check (it succeeds even when
endpoints are tombstoned, as the witness shows) and no pruning. -/
theorem claim10_add_edges_unchecked (d : GraphDiff Id T W)
    (es : List (Id × List (Id × W))) :
    ∃ d2, d.add_edges_unchecked es = .ok d2 ∧
      d2.nodes = d.nodes ∧
      d2.edges.deleted = d.edges.deleted ∧
      (∀ g, g ∉ es.map Prod.fst →
        lookupA d2.edges.new_or_updated g =
          lookupA d.edges.new_or_updated g) ∧
      ((es.map Prod.fst).Nodup → ∀ p ∈ es,
        lookupA d2.edges.new_or_updated p.1 =
          some (extendA ((lookupA d.edges.new_or_updated p.1).getD [])
            p.2)) := by
  refine ⟨_, rfl, rfl, rfl, ?_, ?_⟩
  · intro g hg
    exact unchecked_fold_untouched es _ g hg
  · intro hnd p hp
    exact unchecked_fold_entries es _ hnd p hp

/-- C10, witness: the trusted bulk load succeeds even though the
destination `2` is tombstoned, inserting the edge `1→2`. -/
theorem claim10_witness :
    ∃ d2, ((applyOps [Op.delete_node 2] :
        GraphDiff Nat NodeUpdate ℚ).add_edges_unchecked [(1, [(2, 5)])])
      = .ok d2 ∧ lookupA d2.edges.new_or_updated 1 = some [(2, 5)] := by
  obtain ⟨d2, hok, hn, hdel, hun, hent⟩ := claim10_add_edges_unchecked
    (applyOps [Op.delete_node 2] : GraphDiff Nat NodeUpdate ℚ)
    [(1, [(2, 5)])]
  refine ⟨d2, hok, ?_⟩
  have h := hent (by decide) (1, [(2, 5)]) (by decide)
  rw [h]
  decide

/-- C7: decoding the byte encoding of any diff — in particular the empty
diff, a diff with only node updates, a diff with only deletions, and a
diff mixing all four categories — yields a structurally equal diff:
`bytes_to_graph_diff (graph_diff_to_bytes d) = Ok d`. -/
theorem claim7_round_trip (d : GraphDiff Nat NodeUpdate ℚ) :
    bytes_to_graph_diff (graph_diff_to_bytes d) = .ok d := by
  unfold bytes_to_graph_diff
  simp only [outerParse_enc, decodeEntries_enc]

/-- C8: if the outer envelope parses but the embedded text of any single
node entry fails to decode, `bytes_to_graph_diff` errors for the whole
operation, returning no partial diff; malformed or truncated outer input
likewise yields an explicit error (the modelled decoder is a total
function into `Except`, so it cannot panic). -/
theorem claim8_decode_errors (bs : List Nat) :
    (outerParse bs = none → bytes_to_graph_diff bs = .error decodeErr) ∧
    (∀ jm del ed rest,
      outerParse bs = some ((jm, del, ed), rest) →
      (∃ p ∈ jm, jsonDecode p.2 = none) →
      bytes_to_graph_diff bs = .error decodeErr) := by
  constructor
  · intro h
    unfold bytes_to_graph_diff
    simp only [h]
  · intro jm del ed rest h hbad
    unfold bytes_to_graph_diff
    simp only [h, decodeEntries_none jm hbad]

/-- C8, witness: the truncated input `[0]` errors, and so does a
well-formed envelope whose single node entry carries the unparsable
payload text `z`. -/
theorem claim8_witness :
    bytes_to_graph_diff [0] = .error decodeErr ∧
    bytes_to_graph_diff (encListN (encPairN encNat encStringN)
        [(1, String.mk ['z'])] ++ (encListN encNat [] ++
        (encListN (encPairN encNat (encListN (encPairN encNat encRatN))) [] ++
        encListN (encPairN encNat (encListN encNat)) []))) =
      .error decodeErr := by
  constructor
  · exact (claim8_decode_errors [0]).1 (by rfl)
  · exact (claim8_decode_errors _).2 [(1, String.mk ['z'])] [] ⟨[], []⟩ []
      (outerParse_enc_parts [(1, String.mk ['z'])] [] ⟨[], []⟩)
      ⟨(1, String.mk ['z']), List.mem_cons_self _ _, by rfl⟩

/-- C9: the all-absent `NodeUpdate` is a two-sided identity for the
per-field last-writer-wins merge (`AddAssign for NodeUpdate`). -/
theorem claim9_merge_identity (x : NodeUpdate) :
    NodeUpdate.merge x default = x ∧ NodeUpdate.merge default x = x := by
  constructor
  · rfl
  · obtain ⟨l, s, u, r, g, b, h⟩ := x
    simp only [NodeUpdate.merge]
    cases l <;> cases s <;> cases u <;> cases r <;> cases g <;> cases b <;>
      cases h <;> rfl

end Drisk
